import Mathlib

/-!
Shallow embedding of the Monte Carlo portfolio simulation and Value-at-Risk
engine of `src/app.py` (AlphaPulse).  Exact arithmetic over `ℚ` stands in
for the reference's floating point (so "finite" holds by construction), and
the NumPy pseudo-random generator is modelled as a stream `z : ℕ → ℚ` of
standard-normal draws that `np.random.seed(42)` fixes once; draws are
consumed sequentially from the stream as the simulation loop runs.
-/

namespace AlphaPulse

/-- `returns = data.pct_change().dropna()` for one asset column:
`pct_change` maps price `p[t]` to `(p[t] - p[t-1]) / p[t-1]` and, on a
forward-filled (gap-free) table, `dropna` drops exactly the first
(undefined) row. -/
def pctChangeDropna (prices : List ℚ) : List ℚ :=
  (prices.zip prices.tail).map fun pc => (pc.2 - pc.1) / pc.1

/-- `returns.mean()` for one asset column. -/
def seriesMean (xs : List ℚ) : ℚ := xs.sum / xs.length

/-- The square of `returns.std()` for one asset column: pandas' default is
`ddof = 1`, i.e. the Bessel-corrected sample variance with divisor `n - 1`.
(`daily_vol` in the code is the square root of this; the simulator below
takes the per-asset mean and volatility as numeric inputs, so the
irrational square root never needs to be represented.) -/
def sampleVariance (xs : List ℚ) : ℚ :=
  (xs.map fun x => (x - seriesMean xs) ^ 2).sum / ((xs.length : ℚ) - 1)

/-- Population variance (divisor `n`); NOT what the code computes — used
only to state that the code's divisor is `n - 1` rather than `n`. -/
def populationVariance (xs : List ℚ) : ℚ :=
  (xs.map fun x => (x - seriesMean xs) ^ 2).sum / (xs.length : ℚ)

/-- One cell of `np.random.normal(avg_daily_return, daily_vol, (H, N))`
inside one run: NumPy fills the `H × N` matrix in row-major order, cell
`(t, n)` drawing from the normal distribution with per-asset mean `avg n`
and standard deviation `vol n`, modelled as `avg n + vol n * z k` where
`k` is the draw's position in the global stream (`pos` is the stream
position at which this run's matrix starts). -/
def randomReturn (avg vol : ℕ → ℚ) (z : ℕ → ℚ) (N pos t n : ℕ) : ℚ :=
  avg n + vol n * z (pos + t * N + n)

/-- `portfolio_daily_returns = np.mean(random_returns, axis=1)`: the
`H`-list of equal-weight (unweighted arithmetic mean across the `N`
assets) portfolio daily returns of one run whose draw matrix starts at
stream position `pos`. -/
def portfolioDailyReturns (avg vol : ℕ → ℚ) (z : ℕ → ℚ) (N H pos : ℕ) : List ℚ :=
  (List.range H).map fun t =>
    ((List.range N).map fun n => randomReturn avg vol z N pos t n).sum / (N : ℚ)

/-- The inner compounding loop of one run:
`current_value = initial_investment`, then
`for r in portfolio_daily_returns: current_value = current_value * (1 + r);
portfolio_path.append(current_value)`. -/
def portfolioPath (current : ℚ) : List ℚ → List ℚ
  | [] => []
  | r :: rest => current * (1 + r) :: portfolioPath (current * (1 + r)) rest

/-- The outer simulation loop, from stream position `pos`, running `k`
more simulations: each run consumes the next `H * N` draws of the stream
(one `np.random.normal` call) and contributes one compounded path. -/
def simulateFrom (avg vol : ℕ → ℚ) (z : ℕ → ℚ) (N H : ℕ) (V0 : ℚ) : ℕ → ℕ → List (List ℚ)
  | _, 0 => []
  | pos, k + 1 =>
    portfolioPath V0 (portfolioDailyReturns avg vol z N H pos)
      :: simulateFrom avg vol z N H V0 (pos + H * N) k

/-- `simulation_df`: the list of `R` columns `Sim 0 .. Sim (R-1)`, each an
`H`-day path.  `np.random.seed(42)` fixes the stream once before the loop,
so the first run starts at stream position 0. -/
def simulationDF (avg vol : ℕ → ℚ) (z : ℕ → ℚ) (N H R : ℕ) (V0 : ℚ) : List (List ℚ) :=
  simulateFrom avg vol z N H V0 0 R

/-- `ending_values = simulation_df.iloc[-1]`: the last row, i.e. the last
entry of each column. -/
def endingValues (cols : List (List ℚ)) : List ℚ :=
  cols.map fun col => col.getD (col.length - 1) 0

/-- `np.percentile(xs, q)` with NumPy's default linear interpolation
between order statistics: sort, set `h = q/100 * (n - 1)`, and return
`s[⌊h⌋] + (h - ⌊h⌋) * (s[⌈h⌉] - s[⌊h⌋])`. -/
def npPercentile (xs : List ℚ) (q : ℚ) : ℚ :=
  let s := xs.insertionSort (· ≤ ·)
  let h : ℚ := q / 100 * ((s.length : ℚ) - 1)
  let lo := s.getD ⌊h⌋.toNat 0
  let hi := s.getD ⌈h⌉.toNat 0
  lo + (h - (⌊h⌋.toNat : ℚ)) * (hi - lo)

/-- `future_value_95 = np.percentile(ending_values, 5)`. -/
def futureValue95 (evs : List ℚ) : ℚ := npPercentile evs 5

/-- Specification-side 5th-percentile formula, written from the spec's
words rather than from the code: `rank = 0.05 * (R - 1)` where `R` is the
sample size, then interpolate linearly between the two bracketing order
statistics `s[⌊rank⌋]` and `s[⌊rank⌋ + 1]` of the sorted sample (at an
integral rank the bracketing values coincide, which the `getD` default
realizes at the top edge). -/
def specP5 (xs : List ℚ) : ℚ :=
  let s := xs.insertionSort (· ≤ ·)
  let rank : ℚ := 5 / 100 * ((xs.length : ℚ) - 1)
  let i := ⌊rank⌋.toNat
  let lo := s.getD i 0
  let hi := s.getD (i + 1) lo
  lo + (rank - (i : ℚ)) * (hi - lo)

/-- `VaR_95 = initial_investment - future_value_95`. -/
def var95 (V0 p5 : ℚ) : ℚ := V0 - p5

/-- The two display branches of the result. -/
inductive RiskLabel
  | loss
  | gain
  deriving DecidableEq

/-- The display branch taken by the code: `if VaR_95 > 0:` risk warning
("you could lose this amount", a loss scenario) `else` safe harbor
("even in worst case, you profit", a guaranteed-gain scenario showing
`abs(VaR_95)`). -/
def classify (V0 p5 : ℚ) : RiskLabel :=
  if var95 V0 p5 > 0 then .loss else .gain

/-!
IEEE-NaN tracking model of the same pipeline, used to settle how the code
behaves on insufficient history: the script performs no validation at all
(`num_simulations` and `time_horizon` are hardcoded positive constants and
nothing checks the length of `returns`), so with a single return
observation pandas' `returns.std()` (ddof = 1) is NaN, `np.random.normal`
with a NaN scale raises nothing (its only check, `scale < 0`, is false for
NaN) and returns NaN samples, and NaN then propagates through the mean,
the compounding, `np.percentile` and `VaR_95`.  `none : Option ℝ` models
NaN; every arithmetic operation propagates it exactly as IEEE-754
arithmetic propagates NaN.  Python's `NaN > 0` is `False`, so a NaN
`VaR_95` takes the `else` (gain) display branch.
-/

/-- NaN-propagating addition. -/
noncomputable def nadd : Option ℝ → Option ℝ → Option ℝ
  | some a, some b => some (a + b)
  | _, _ => none

/-- NaN-propagating multiplication. -/
noncomputable def nmul : Option ℝ → Option ℝ → Option ℝ
  | some a, some b => some (a * b)
  | _, _ => none

/-- NaN-propagating subtraction. -/
noncomputable def nsub : Option ℝ → Option ℝ → Option ℝ
  | some a, some b => some (a - b)
  | _, _ => none

/-- `data.pct_change().dropna()` over the reals (one asset column). -/
noncomputable def pctChangeR (prices : List ℝ) : List ℝ :=
  (prices.zip prices.tail).map fun pc => (pc.2 - pc.1) / pc.1

/-- `returns.mean()`: NaN on an empty column. -/
noncomputable def meanO (xs : List ℝ) : Option ℝ :=
  if xs.length = 0 then none else some (xs.sum / xs.length)

/-- `returns.std()` (pandas default ddof = 1): NaN on fewer than 2
observations, otherwise the Bessel-corrected sample standard deviation. -/
noncomputable def stdO (xs : List ℝ) : Option ℝ :=
  if xs.length < 2 then none
  else some (Real.sqrt ((xs.map fun x => (x - xs.sum / xs.length) ^ 2).sum /
    ((xs.length : ℝ) - 1)))

/-- One cell of `np.random.normal(avg, vol, ...)`: NaN location or scale
yields a NaN sample (NumPy only rejects `scale < 0`, which is false for
NaN). -/
noncomputable def drawO (avg vol : Option ℝ) (zk : ℝ) : Option ℝ :=
  nmul vol (some zk) |>.bind fun sv => avg.map fun m => m + sv

/-- `np.mean` along one row of the draw matrix: NaN on an empty row
(`np.mean` of an empty slice is NaN), NaN if any entry is NaN. -/
noncomputable def meanAxisO (xs : List (Option ℝ)) : Option ℝ :=
  if xs.length = 0 then none
  else (xs.foldr nadd (some 0)).map fun s => s / xs.length

/-- `portfolio_daily_returns` of one run in the NaN model. -/
noncomputable def dailyReturnsO (avg vol : ℕ → Option ℝ) (z : ℕ → ℝ) (N H pos : ℕ) :
    List (Option ℝ) :=
  (List.range H).map fun t =>
    meanAxisO ((List.range N).map fun n => drawO (avg n) (vol n) (z (pos + t * N + n)))

/-- The compounding loop in the NaN model. -/
noncomputable def pathO (v : Option ℝ) : List (Option ℝ) → List (Option ℝ)
  | [] => []
  | r :: rest => nmul v (nadd (some 1) r) :: pathO (nmul v (nadd (some 1) r)) rest

/-- The outer simulation loop in the NaN model. -/
noncomputable def simFromO (avg vol : ℕ → Option ℝ) (z : ℕ → ℝ) (N H : ℕ) (V0 : ℝ) :
    ℕ → ℕ → List (List (Option ℝ))
  | _, 0 => []
  | pos, k + 1 =>
    pathO (some V0) (dailyReturnsO avg vol z N H pos)
      :: simFromO avg vol z N H V0 (pos + H * N) k

/-- `ending_values` in the NaN model. -/
def evsO (cols : List (List (Option ℝ))) : List (Option ℝ) :=
  cols.map fun col => col.getD (col.length - 1) none

/-- `np.percentile(xs, q)` in the NaN model: NaN as soon as any input is
NaN, otherwise sort and interpolate as in `npPercentile`. -/
noncomputable def percO (xs : List (Option ℝ)) (q : ℝ) : Option ℝ :=
  if xs.all Option.isSome then
    some (
      let s := (xs.map fun o => o.getD 0).insertionSort (· ≤ ·)
      let h : ℝ := q / 100 * ((s.length : ℝ) - 1)
      let lo := s.getD ⌊h⌋.toNat 0
      let hi := s.getD ⌈h⌉.toNat 0
      lo + (h - (⌊h⌋.toNat : ℝ)) * (hi - lo))
  else none

/-- `if VaR_95 > 0:` loss branch `else` gain branch, with Python's
`NaN > 0 = False` sending a NaN VaR to the gain branch. -/
noncomputable def classifyO : Option ℝ → RiskLabel
  | some v => if v > 0 then .loss else .gain
  | none => .gain

/-- The per-asset return columns the script derives from the downloaded
price table (`returns`), in the NaN model. -/
noncomputable def appReturnsO (data : List (List ℝ)) : List (List ℝ) :=
  data.map pctChangeR

/-- `avg_daily_return` for asset `n`. -/
noncomputable def appAvgO (data : List (List ℝ)) (n : ℕ) : Option ℝ :=
  meanO ((appReturnsO data).getD n [])

/-- `daily_vol` for asset `n`. -/
noncomputable def appVolO (data : List (List ℝ)) (n : ℕ) : Option ℝ :=
  stdO ((appReturnsO data).getD n [])

/-- `simulation_df` as the script actually computes it from a price table
(no validation step of any kind precedes it). -/
noncomputable def appDFO (data : List (List ℝ)) (z : ℕ → ℝ) (H R : ℕ) (V0 : ℝ) :
    List (List (Option ℝ)) :=
  simFromO (appAvgO data) (appVolO data) z data.length H V0 0 R

/-- `VaR_95 = initial_investment - np.percentile(ending_values, 5)` as the
script computes it. -/
noncomputable def appVaRO (data : List (List ℝ)) (z : ℕ → ℝ) (H R : ℕ) (V0 : ℝ) : Option ℝ :=
  nsub (some V0) (percO (evsO (appDFO data z H R V0)) 5)

/-- The display branch the script takes. -/
noncomputable def appLabelO (data : List (List ℝ)) (z : ℕ → ℝ) (H R : ℕ) (V0 : ℝ) : RiskLabel :=
  classifyO (appVaRO data z H R V0)

/-! ### Lemmas about the compounding loop -/

theorem portfolioPath_length (v : ℚ) (rs : List ℚ) :
    (portfolioPath v rs).length = rs.length := by
  induction rs generalizing v with
  | nil => rfl
  | cons r rest ih => simp [portfolioPath, ih]

theorem portfolioPath_getD (v : ℚ) (rs : List ℚ) (t : ℕ) (ht : t < rs.length) :
    (portfolioPath v rs).getD t 0 =
      v * ((rs.take (t + 1)).map fun r => 1 + r).prod := by
  induction rs generalizing v t with
  | nil => simp at ht
  | cons r rest ih =>
    cases t with
    | zero => simp [portfolioPath, mul_comm]
    | succ s =>
      have hs : s < rest.length := by simpa using ht
      simp only [portfolioPath, List.getD_cons_succ, List.take_succ_cons, List.map_cons,
        List.prod_cons]
      rw [ih _ _ hs]
      ring

theorem portfolioDailyReturns_length (avg vol : ℕ → ℚ) (z : ℕ → ℚ) (N H pos : ℕ) :
    (portfolioDailyReturns avg vol z N H pos).length = H := by
  simp [portfolioDailyReturns]

theorem portfolioDailyReturns_getD (avg vol : ℕ → ℚ) (z : ℕ → ℚ) (N H pos t : ℕ)
    (ht : t < H) :
    (portfolioDailyReturns avg vol z N H pos).getD t 0 =
      ((List.range N).map fun n => randomReturn avg vol z N pos t n).sum / (N : ℚ) := by
  simp [portfolioDailyReturns, List.getD, List.getElem?_map, List.getElem?_range, ht]

theorem simulateFrom_getD (avg vol : ℕ → ℚ) (z : ℕ → ℚ) (N H : ℕ) (V0 : ℚ)
    (pos k i : ℕ) (hi : i < k) :
    (simulateFrom avg vol z N H V0 pos k).getD i [] =
      portfolioPath V0 (portfolioDailyReturns avg vol z N H (pos + i * (H * N))) := by
  induction k generalizing pos i with
  | zero => omega
  | succ k ih =>
    cases i with
    | zero => simp [simulateFrom]
    | succ j =>
      have := ih (pos + H * N) j (by omega)
      simp only [simulateFrom, List.getD_cons_succ, this]
      congr 2
      ring

theorem portfolioPath_recurrence (v : ℚ) (rs : List ℚ) (t : ℕ) (ht : t < rs.length) :
    (portfolioPath v rs).getD t 0 =
      (if t = 0 then v else (portfolioPath v rs).getD (t - 1) 0) * (1 + rs.getD t 0) := by
  cases t with
  | zero =>
    cases rs with
    | nil => simp at ht
    | cons r rest => simp [portfolioPath]
  | succ s =>
    have hs : s < rs.length := by omega
    have hget : rs.getD (s + 1) 0 = rs.get ⟨s + 1, ht⟩ := by
      simp [List.getD, List.getElem?_eq_getElem ht]
    have hx : rs.take (s + 1 + 1) = rs.take (s + 1) ++ [rs.getD (s + 1) 0] := by
      rw [List.take_succ, List.getElem?_eq_getElem ht, hget]
      simp
    rw [portfolioPath_getD v rs (s + 1) ht, if_neg (Nat.succ_ne_zero s), Nat.succ_sub_one,
      portfolioPath_getD v rs s hs, hx]
    simp [List.prod_append]
    ring

/-- **C10**: for every run, the iterative compounding loop agrees with the
closed form `value[t] = V0 * ∏_{s ∈ [0, t]} (1 + portfolioDailyReturn[s])`;
in particular the run's ending value is `V0` times the product of
`(1 + portfolio daily return)` over all `H` days. -/
theorem c10_loop_equals_closed_form (avg vol z : ℕ → ℚ) (N H R : ℕ) (V0 : ℚ) (i : ℕ)
    (hi : i < R) :
    (∀ t, t < H →
      ((simulationDF avg vol z N H R V0).getD i []).getD t 0 =
        V0 * (((portfolioDailyReturns avg vol z N H (i * (H * N))).take (t + 1)).map
          fun r => 1 + r).prod) ∧
    (1 ≤ H →
      ((simulationDF avg vol z N H R V0).getD i []).getD (H - 1) 0 =
        V0 * ((portfolioDailyReturns avg vol z N H (i * (H * N))).map fun r => 1 + r).prod) := by
  have hcol : (simulationDF avg vol z N H R V0).getD i [] =
      portfolioPath V0 (portfolioDailyReturns avg vol z N H (i * (H * N))) := by
    simpa using simulateFrom_getD avg vol z N H V0 0 R i hi
  constructor
  · intro t ht
    rw [hcol, portfolioPath_getD]
    rw [portfolioDailyReturns_length]
    exact ht
  · intro hH
    have hlen : (portfolioDailyReturns avg vol z N H (i * (H * N))).length = H :=
      portfolioDailyReturns_length avg vol z N H (i * (H * N))
    have h1 : H - 1 + 1 = H := by omega
    rw [hcol, portfolioPath_getD _ _ _ (by omega), h1, List.take_of_length_le (by omega)]

/-- Witness for C10 at a concrete instance: one asset, two days, one run,
constant 10% portfolio daily return, `V0 = 100`. -/
theorem c10_witness :
    ((simulationDF (fun _ => 1/10) (fun _ => 0) (fun _ => 0) 1 2 1 100).getD 0 []).getD 1 0 =
      100 * (((portfolioDailyReturns (fun _ => 1/10) (fun _ => 0) (fun _ => 0) 1 2 0).take 2).map
        fun r => 1 + r).prod := by
  have h := (c10_loop_equals_closed_form (fun _ => 1/10) (fun _ => 0) (fun _ => 0) 1 2 1 100 0
    (by norm_num)).1 1 (by norm_num)
  simpa using h

/-- **C1**: for every run `i` and every day `t ∈ [0, H)`, the simulated
portfolio value satisfies
`value[t] = value[t-1] * (1 + mean of the N drawn per-asset returns for day t)`
with `value[-1] = V0` (the `t = 0` case), the day's portfolio return being
the unweighted arithmetic mean across the `N` assets. -/
theorem c1_compounding_recurrence (avg vol z : ℕ → ℚ) (N H R : ℕ) (V0 : ℚ) (i t : ℕ)
    (hi : i < R) (ht : t < H) :
    ((simulationDF avg vol z N H R V0).getD i []).getD t 0 =
      (if t = 0 then V0 else ((simulationDF avg vol z N H R V0).getD i []).getD (t - 1) 0) *
        (1 + ((List.range N).map fun n =>
          randomReturn avg vol z N (i * (H * N)) t n).sum / (N : ℚ)) := by
  have hcol : (simulationDF avg vol z N H R V0).getD i [] =
      portfolioPath V0 (portfolioDailyReturns avg vol z N H (i * (H * N))) := by
    simpa using simulateFrom_getD avg vol z N H V0 0 R i hi
  rw [hcol, portfolioPath_recurrence _ _ t (by rw [portfolioDailyReturns_length]; exact ht),
    portfolioDailyReturns_getD _ _ _ _ _ _ _ ht]

/-- Witness for C1 at a concrete instance: one asset, horizon 2, one run,
day `t = 1`. -/
theorem c1_witness :
    ((simulationDF (fun _ => 1/10) (fun _ => 0) (fun _ => 0) 1 2 1 100).getD 0 []).getD 1 0 =
      ((simulationDF (fun _ => 1/10) (fun _ => 0) (fun _ => 0) 1 2 1 100).getD 0 []).getD 0 0 *
        (1 + ((List.range 1).map fun n =>
          randomReturn (fun _ => 1/10) (fun _ => 0) (fun _ => 0) 1 0 1 n).sum / (1 : ℚ)) := by
  have h := c1_compounding_recurrence (fun _ => 1/10) (fun _ => 0) (fun _ => 0) 1 2 1 100 0 1
    (by norm_num) (by norm_num)
  simpa using h

/-! ### Shape, positivity and homogeneity of the ensemble -/

theorem simulateFrom_length (avg vol z : ℕ → ℚ) (N H : ℕ) (V0 : ℚ) (pos k : ℕ) :
    (simulateFrom avg vol z N H V0 pos k).length = k := by
  induction k generalizing pos with
  | zero => rfl
  | succ k ih => simp [simulateFrom, ih]

theorem simulateFrom_mem (avg vol z : ℕ → ℚ) (N H : ℕ) (V0 : ℚ) (pos k : ℕ)
    (col : List ℚ) (h : col ∈ simulateFrom avg vol z N H V0 pos k) :
    ∃ j, j < k ∧
      col = portfolioPath V0 (portfolioDailyReturns avg vol z N H (pos + j * (H * N))) := by
  induction k generalizing pos with
  | zero => simp [simulateFrom] at h
  | succ k ih =>
    rcases (by simpa [simulateFrom] using h :
        col = portfolioPath V0 (portfolioDailyReturns avg vol z N H pos) ∨
          col ∈ simulateFrom avg vol z N H V0 (pos + H * N) k) with h1 | h1
    · exact ⟨0, by omega, by simpa using h1⟩
    · rcases ih _ h1 with ⟨j, hj, hcol⟩
      refine ⟨j + 1, by omega, ?_⟩
      rw [hcol]
      congr 2
      ring

theorem portfolioPath_pos (v : ℚ) (rs : List ℚ) (hv : 0 < v) (hrs : ∀ r ∈ rs, -1 < r) :
    ∀ x ∈ portfolioPath v rs, 0 < x := by
  induction rs generalizing v with
  | nil => simp [portfolioPath]
  | cons r rest ih =>
    intro x hx
    have hr : -1 < r := hrs r (by simp)
    have hv' : 0 < v * (1 + r) := mul_pos hv (by linarith)
    rcases (by simpa [portfolioPath] using hx :
        x = v * (1 + r) ∨ x ∈ portfolioPath (v * (1 + r)) rest) with h | h
    · rw [h]; exact hv'
    · exact ih (v * (1 + r)) hv' (fun r' hr' => hrs r' (by simp [hr'])) x h

/-- **C5**: the ensemble always has exactly `R` columns of `H` rows each
(every entry is a well-defined rational, hence finite by construction),
and if `V0 > 0` and no simulated portfolio daily return is `≤ -100%`
then every entry is strictly positive. -/
theorem c5_shape_and_positivity (avg vol z : ℕ → ℚ) (N H R : ℕ) (V0 : ℚ) :
    (simulationDF avg vol z N H R V0).length = R ∧
    (∀ col ∈ simulationDF avg vol z N H R V0, col.length = H) ∧
    (0 < V0 →
      (∀ i, i < R → ∀ r ∈ portfolioDailyReturns avg vol z N H (i * (H * N)), -1 < r) →
      ∀ col ∈ simulationDF avg vol z N H R V0, ∀ x ∈ col, 0 < x) := by
  refine ⟨simulateFrom_length avg vol z N H V0 0 R, ?_, ?_⟩
  · intro col hcol
    rcases simulateFrom_mem avg vol z N H V0 0 R col hcol with ⟨j, _, rfl⟩
    rw [portfolioPath_length, portfolioDailyReturns_length]
  · intro hV0 hret col hcol
    rcases simulateFrom_mem avg vol z N H V0 0 R col hcol with ⟨j, hj, rfl⟩
    exact portfolioPath_pos V0 _ hV0 (by simpa using hret j hj)

/-- Witness for C5: one asset, horizon 2, one run, zero volatility and zero
mean return, `V0 = 100` — all hypotheses hold and all values are positive. -/
theorem c5_witness :
    (simulationDF (fun _ => 0) (fun _ => 0) (fun _ => 0) 1 2 1 100).length = 1 ∧
    (∀ col ∈ simulationDF (fun _ => 0) (fun _ => 0) (fun _ => 0) 1 2 1 100, col.length = 2) ∧
    (∀ col ∈ simulationDF (fun _ => 0) (fun _ => 0) (fun _ => 0) 1 2 1 100, ∀ x ∈ col, 0 < x) := by
  have h := c5_shape_and_positivity (fun _ => 0) (fun _ => 0) (fun _ => 0) 1 2 1 100
  refine ⟨h.1, h.2.1, h.2.2 (by norm_num) ?_⟩
  intro i hi r hr
  have : r = 0 := by
    interval_cases i
    simpa [portfolioDailyReturns, randomReturn, List.range_succ] using hr
  simp [this]

theorem portfolioPath_smul (c : ℚ) (v : ℚ) (rs : List ℚ) :
    portfolioPath (c * v) rs = (portfolioPath v rs).map fun x => c * x := by
  induction rs generalizing v with
  | nil => rfl
  | cons r rest ih => simp [portfolioPath, mul_assoc, ih]

theorem simulateFrom_smul (c : ℚ) (avg vol z : ℕ → ℚ) (N H : ℕ) (V0 : ℚ) (pos k : ℕ) :
    simulateFrom avg vol z N H (c * V0) pos k =
      (simulateFrom avg vol z N H V0 pos k).map (List.map fun x => c * x) := by
  induction k generalizing pos with
  | zero => rfl
  | succ k ih => simp [simulateFrom, portfolioPath_smul, ih]

theorem getD_map_smul (c : ℚ) (col : List ℚ) (m : ℕ) :
    (col.map fun x => c * x).getD m 0 = c * col.getD m 0 := by
  rcases hcm : col[m]? with _ | a
  · simp [List.getD, List.getElem?_map, hcm]
  · simp [List.getD, List.getElem?_map, hcm]

theorem endingValues_map_smul (c : ℚ) (cols : List (List ℚ)) :
    endingValues (cols.map (List.map fun x => c * x)) =
      (endingValues cols).map fun x => c * x := by
  simp only [endingValues, List.map_map]
  apply List.map_congr_left
  intro col _
  simp only [Function.comp_apply, List.length_map]
  exact getD_map_smul c col (col.length - 1)

theorem orderedInsert_smul (c : ℚ) (hc : 0 < c) (a : ℚ) (l : List ℚ) :
    (l.map fun x => c * x).orderedInsert (· ≤ ·) (c * a) =
      (l.orderedInsert (· ≤ ·) a).map fun x => c * x := by
  induction l with
  | nil => rfl
  | cons b l ih =>
    simp only [List.map_cons, List.orderedInsert]
    by_cases h : a ≤ b
    · rw [if_pos ((mul_le_mul_left hc).mpr h), if_pos h]
      simp
    · rw [if_neg (fun hc2 => h ((mul_le_mul_left hc).mp hc2)), if_neg h]
      simp [ih]

theorem insertionSort_smul (c : ℚ) (hc : 0 < c) (l : List ℚ) :
    (l.map fun x => c * x).insertionSort (· ≤ ·) =
      (l.insertionSort (· ≤ ·)).map fun x => c * x := by
  induction l with
  | nil => rfl
  | cons a l ih => simp only [List.map_cons, List.insertionSort, ih, orderedInsert_smul c hc]

theorem npPercentile_smul (c : ℚ) (hc : 0 < c) (xs : List ℚ) (q : ℚ) :
    npPercentile (xs.map fun x => c * x) q = c * npPercentile xs q := by
  simp only [npPercentile, insertionSort_smul c hc, List.length_map, getD_map_smul]
  ring

/-- **C6**: with the statistics, seed (stream), `H` and `R` fixed, doubling
`V0` doubles every simulated path value and doubles `VaR_95` exactly. -/
theorem c6_doubling_V0 (avg vol z : ℕ → ℚ) (N H R : ℕ) (V0 : ℚ) :
    simulationDF avg vol z N H R (2 * V0) =
      (simulationDF avg vol z N H R V0).map (List.map fun x => 2 * x) ∧
    var95 (2 * V0) (futureValue95 (endingValues (simulationDF avg vol z N H R (2 * V0)))) =
      2 * var95 V0 (futureValue95 (endingValues (simulationDF avg vol z N H R V0))) := by
  refine ⟨simulateFrom_smul 2 avg vol z N H V0 0 R, ?_⟩
  simp only [simulationDF]
  rw [simulateFrom_smul 2 avg vol z N H V0 0 R, endingValues_map_smul,
    futureValue95, npPercentile_smul 2 (by norm_num), var95, var95, futureValue95]
  ring

/-! ### Determinism and single seeding of the random stream -/

theorem portfolioDailyReturns_congr (avg vol z1 z2 : ℕ → ℚ) (N H pos : ℕ)
    (h : ∀ j, pos ≤ j → j < pos + H * N → z1 j = z2 j) :
    portfolioDailyReturns avg vol z1 N H pos = portfolioDailyReturns avg vol z2 N H pos := by
  unfold portfolioDailyReturns
  apply List.map_congr_left
  intro t ht
  have ht' : t < H := List.mem_range.mp ht
  congr 1
  congr 1
  apply List.map_congr_left
  intro n hn
  have hn' : n < N := List.mem_range.mp hn
  have hb : t * N + n < H * N := by
    calc t * N + n < t * N + N := by omega
    _ = (t + 1) * N := by ring
    _ ≤ H * N := Nat.mul_le_mul_right N ht'
  unfold randomReturn
  rw [h (pos + t * N + n) (by omega) (by omega)]

theorem simulateFrom_congr (avg vol z1 z2 : ℕ → ℚ) (N H : ℕ) (V0 : ℚ) (pos k : ℕ)
    (h : ∀ j, pos ≤ j → j < pos + k * (H * N) → z1 j = z2 j) :
    simulateFrom avg vol z1 N H V0 pos k = simulateFrom avg vol z2 N H V0 pos k := by
  induction k generalizing pos with
  | zero => rfl
  | succ k ih =>
    have hsplit : (k + 1) * (H * N) = H * N + k * (H * N) := by ring
    unfold simulateFrom
    congr 1
    · congr 1
      apply portfolioDailyReturns_congr
      intro j h1 h2
      exact h j h1 (by omega)
    · apply ih
      intro j h1 h2
      exact h j (by omega) (by omega)

/-- **C7**: for fixed statistics, horizon, run count and random stream
(seed), two executions of the simulator are identical — the output depends
on the stream only through its first `R * H * N` values — and the seed is
fixed once for the whole ensemble: run `i` consumes the stream chunk
starting at offset `i * H * N`, not a freshly reseeded stream. -/
theorem c7_determinism_single_seed :
    (∀ (avg vol z1 z2 : ℕ → ℚ) (N H R : ℕ) (V0 : ℚ),
      (∀ j, j < R * (H * N) → z1 j = z2 j) →
      simulationDF avg vol z1 N H R V0 = simulationDF avg vol z2 N H R V0) ∧
    (∀ (avg vol z : ℕ → ℚ) (N H R : ℕ) (V0 : ℚ) (i : ℕ), i < R →
      (simulationDF avg vol z N H R V0).getD i [] =
        portfolioPath V0 (portfolioDailyReturns avg vol z N H (i * (H * N)))) := by
  constructor
  · intro avg vol z1 z2 N H R V0 h
    exact simulateFrom_congr avg vol z1 z2 N H V0 0 R fun j _ hj => h j (by omega)
  · intro avg vol z N H R V0 i hi
    simpa using simulateFrom_getD avg vol z N H V0 0 R i hi

/-- Witness for C7: two streams that agree on the consumed prefix (the
first `R * H * N = 2` values) but differ beyond it give the same ensemble,
and run 0 reads the chunk at offset 0. -/
theorem c7_witness :
    simulationDF (fun _ => 1) (fun _ => 1) (fun j => if j < 2 then 1 else 0) 1 2 1 100 =
      simulationDF (fun _ => 1) (fun _ => 1) (fun j => if j < 2 then 1 else 7) 1 2 1 100 ∧
    (simulationDF (fun _ => 1) (fun _ => 1) (fun j => if j < 2 then 1 else 0) 1 2 1 100).getD
        0 [] =
      portfolioPath 100 (portfolioDailyReturns (fun _ => 1) (fun _ => 1)
        (fun j => if j < 2 then 1 else 0) 1 2 0) := by
  constructor
  · apply c7_determinism_single_seed.1
    intro j hj
    have hj2 : j < 2 := by omega
    simp [hj2]
  · have h := c7_determinism_single_seed.2 (fun _ => 1) (fun _ => 1)
      (fun j => if j < 2 then 1 else 0) 1 2 1 100 0 (by norm_num)
    simpa using h

/-! ### The 5th-percentile computation -/

theorem getD_default_irrelevant (s : List ℚ) (m : ℕ) (hm : m < s.length) (d d' : ℚ) :
    s.getD m d = s.getD m d' := by
  simp [List.getD, List.getElem?_eq_getElem hm]

/-- **C2**: the computed `p5` is the 5th percentile under linear
interpolation between order statistics at rank `0.05 * (R - 1)`; on the
sample `1, 2, ..., 100` it equals `5.95` exactly (exact rationals stand in
for floating point, so "within floating-point tolerance" becomes exact
equality). -/
theorem c2_percentile_interpolation :
    (∀ xs : List ℚ, xs ≠ [] → futureValue95 xs = specP5 xs) ∧
    futureValue95 ((List.range 100).map fun k => ((k + 1 : ℕ) : ℚ)) = 119 / 20 := by
  constructor
  · intro xs hxs
    have hn : 1 ≤ xs.length := List.length_pos.mpr hxs
    have hslen : (xs.insertionSort (· ≤ ·)).length = xs.length :=
      List.length_insertionSort _ _
    simp only [futureValue95, npPercentile, specP5, hslen]
    have hn1 : (1 : ℚ) ≤ (xs.length : ℚ) := by exact_mod_cast hn
    have hrank0 : (0 : ℚ) ≤ 5 / 100 * ((xs.length : ℚ) - 1) := by
      apply mul_nonneg <;> linarith
    have hrank1 : 5 / 100 * ((xs.length : ℚ) - 1) ≤ (xs.length : ℚ) - 1 := by nlinarith
    set rank : ℚ := 5 / 100 * ((xs.length : ℚ) - 1) with hrankdef
    have hfl0 : 0 ≤ ⌊rank⌋ := Int.floor_nonneg.mpr hrank0
    have hcast : ((⌊rank⌋.toNat : ℕ) : ℚ) = ((⌊rank⌋ : ℤ) : ℚ) := by
      exact_mod_cast congrArg (fun z : ℤ => (z : ℚ)) (Int.toNat_of_nonneg hfl0)
    by_cases hint : ((⌊rank⌋ : ℤ) : ℚ) = rank
    · have hz : rank - (⌊rank⌋.toNat : ℚ) = 0 := by rw [hcast, hint]; ring
      rw [hz]
      ring
    · have hlt : ((⌊rank⌋ : ℤ) : ℚ) < rank := lt_of_le_of_ne (Int.floor_le rank) hint
      have hceil : ⌈rank⌉ = ⌊rank⌋ + 1 := by
        have h1 : ⌊rank⌋ < ⌈rank⌉ := by
          have h2 : ((⌊rank⌋ : ℤ) : ℚ) < ((⌈rank⌉ : ℤ) : ℚ) :=
            lt_of_lt_of_le hlt (Int.le_ceil rank)
          exact_mod_cast h2
        have h2 : ⌈rank⌉ ≤ ⌊rank⌋ + 1 := Int.ceil_le_floor_add_one rank
        omega
      have hceilNat : ⌈rank⌉.toNat = ⌊rank⌋.toNat + 1 := by
        rw [hceil]
        omega
      have hrtop : rank < (xs.length : ℚ) - 1 := by
        rcases lt_or_eq_of_le hrank1 with h | h
        · exact h
        · exfalso
          apply hint
          rw [h]
          have hc : ((xs.length : ℚ) - 1) = (((xs.length - 1 : ℕ) : ℤ) : ℚ) := by
            push_cast [Nat.cast_sub hn]
            ring
          rw [hc, Int.floor_intCast]
      have hidx : ⌊rank⌋.toNat + 1 < xs.length := by
        have hfl : ((⌊rank⌋ : ℤ) : ℚ) < (xs.length : ℚ) - 1 :=
          lt_of_le_of_lt (Int.floor_le rank) hrtop
        have hfl2 : ⌊rank⌋ < (xs.length : ℤ) - 1 := by exact_mod_cast hfl
        omega
      rw [hceilNat,
        getD_default_irrelevant (xs.insertionSort (· ≤ ·)) (⌊rank⌋.toNat + 1)
          (by rw [hslen]; exact hidx) 0
          ((xs.insertionSort (· ≤ ·)).getD ⌊rank⌋.toNat 0)]
  · have hsorted : ((List.range 100).map fun k => ((k + 1 : ℕ) : ℚ)).Sorted (· ≤ ·) := by
      apply List.Pairwise.map
      · intro a b hab
        exact_mod_cast Nat.succ_le_succ (le_of_lt hab)
      · exact List.pairwise_lt_range 100
    have hr : (5 : ℚ) / 100 *
        ((((List.range 100).map fun k => ((k + 1 : ℕ) : ℚ)).length : ℚ) - 1) = 99 / 20 := by
      simp
      norm_num
    have hfl : (⌊(99 : ℚ) / 20⌋).toNat = 4 := by
      rw [show ⌊(99 : ℚ) / 20⌋ = 4 by norm_num]
      rfl
    have hcl : (⌈(99 : ℚ) / 20⌉).toNat = 5 := by
      have hc5 : ⌈(99 : ℚ) / 20⌉ = 5 := by
        rw [Int.ceil_eq_iff]
        norm_num
      rw [hc5]
      rfl
    have h4 : (((List.range 100).map fun k => ((k + 1 : ℕ) : ℚ))).getD 4 0 = 5 := by
      rw [List.getD_eq_getElem?_getD, List.getElem?_map, List.getElem?_range (by norm_num)]
      norm_num
    have h5 : (((List.range 100).map fun k => ((k + 1 : ℕ) : ℚ))).getD 5 0 = 6 := by
      rw [List.getD_eq_getElem?_getD, List.getElem?_map, List.getElem?_range (by norm_num)]
      norm_num
    simp only [futureValue95, npPercentile, List.Sorted.insertionSort_eq hsorted, hr, hfl, hcl,
      h4, h5]
    norm_num

/-- Witness for C2 at a concrete nonempty sample. -/
theorem c2_witness : futureValue95 [3, 1, 2, 4] = specP5 [3, 1, 2, 4] :=
  c2_percentile_interpolation.1 [3, 1, 2, 4] (by simp)

/-! ### VaR sign and classification -/

/-- **C3**: `VaR95 = V0 - p5`; if `p5 < V0` then `VaR95 > 0` and the code
takes the loss branch; if `p5 ≥ V0` then `VaR95 ≤ 0` and the code takes
the gain branch, displaying the profit `|VaR95| = p5 - V0`; the boundary
`VaR95 = 0` falls in the gain branch (`if VaR_95 > 0` is false). -/
theorem c3_var_sign_classification (V0 : ℚ) (evs : List ℚ) :
    (futureValue95 evs < V0 →
      0 < var95 V0 (futureValue95 evs) ∧ classify V0 (futureValue95 evs) = RiskLabel.loss) ∧
    (V0 ≤ futureValue95 evs →
      var95 V0 (futureValue95 evs) ≤ 0 ∧ classify V0 (futureValue95 evs) = RiskLabel.gain ∧
        |var95 V0 (futureValue95 evs)| = futureValue95 evs - V0) ∧
    (var95 V0 (futureValue95 evs) = 0 → classify V0 (futureValue95 evs) = RiskLabel.gain) := by
  refine ⟨fun h => ⟨?_, ?_⟩, fun h => ⟨?_, ?_, ?_⟩, fun h => ?_⟩
  · simp only [var95]
    linarith
  · simp only [classify, var95]
    rw [if_pos (by linarith)]
  · simp only [var95]
    linarith
  · simp only [classify, var95]
    rw [if_neg (by linarith)]
  · simp only [var95]
    rw [abs_of_nonpos (by linarith)]
    ring
  · simp only [classify]
    rw [if_neg (by rw [h]; exact lt_irrefl 0)]

theorem futureValue95_singleton (x : ℚ) : futureValue95 [x] = x := by
  have h0 : (5 : ℚ) / 100 * (((1 : ℕ) : ℚ) - 1) = 0 := by norm_num
  simp [futureValue95, npPercentile, List.insertionSort, List.orderedInsert, h0]

/-- Witness for C3: a loss case (`p5 = 8 < V0 = 10`), a gain case
(`p5 = 12 ≥ 10`) and the boundary case (`p5 = V0 = 10`). -/
theorem c3_witness :
    (0 < var95 10 (futureValue95 [8]) ∧ classify 10 (futureValue95 [8]) = RiskLabel.loss) ∧
    (var95 10 (futureValue95 [12]) ≤ 0 ∧ classify 10 (futureValue95 [12]) = RiskLabel.gain ∧
      |var95 10 (futureValue95 [12])| = futureValue95 [12] - 10) ∧
    classify 10 (futureValue95 [10]) = RiskLabel.gain := by
  refine ⟨(c3_var_sign_classification 10 [8]).1 ?_,
    (c3_var_sign_classification 10 [12]).2.1 ?_,
    (c3_var_sign_classification 10 [10]).2.2 ?_⟩
  · rw [futureValue95_singleton]
    norm_num
  · rw [futureValue95_singleton]
    norm_num
  · rw [futureValue95_singleton, var95]
    norm_num

/-! ### Daily returns from prices -/

/-- **C8**: on a forward-filled price column with `D` trading days of
nonzero prices, the derived return series has length exactly `D - 1`
(only the first, undefined, day is dropped) and
`return[t] = price[t+1] / price[t] - 1` for every remaining day. -/
theorem c8_pct_change (prices : List ℚ) (hnz : ∀ p ∈ prices, p ≠ 0) :
    (pctChangeDropna prices).length = prices.length - 1 ∧
    ∀ t, t + 1 < prices.length →
      (pctChangeDropna prices).getD t 0 = prices.getD (t + 1) 0 / prices.getD t 0 - 1 := by
  constructor
  · simp [pctChangeDropna]
  · intro t ht
    have h1 : t < prices.length := by omega
    have h2 : t < prices.tail.length := by
      rw [List.length_tail]
      omega
    have hz : t < (prices.zip prices.tail).length := by
      rw [List.length_zip]
      omega
    have hmap : t < ((prices.zip prices.tail).map fun pc => (pc.2 - pc.1) / pc.1).length := by
      rw [List.length_map]
      exact hz
    have eL : (pctChangeDropna prices).getD t 0 = (prices[t + 1] - prices[t]) / prices[t] := by
      simp [pctChangeDropna, List.getD_eq_getElem?_getD, List.getElem?_eq_getElem hmap,
        List.getElem_map, List.getElem_zip, List.getElem_tail]
    have e1 : prices.getD t 0 = prices[t] := by
      simp [List.getD_eq_getElem?_getD, List.getElem?_eq_getElem h1]
    have e2 : prices.getD (t + 1) 0 = prices[t + 1] := by
      simp [List.getD_eq_getElem?_getD, List.getElem?_eq_getElem ht]
    rw [eL, e1, e2, sub_div, div_self (hnz _ (prices.getElem_mem h1))]

/-- Witness for C8 on the concrete price column `[100, 110, 99]`. -/
theorem c8_witness :
    (pctChangeDropna [100, 110, 99]).length = 2 ∧
    (pctChangeDropna [100, 110, 99]).getD 1 0 =
      ([100, 110, 99] : List ℚ).getD 2 0 / ([100, 110, 99] : List ℚ).getD 1 0 - 1 := by
  have h := c8_pct_change [100, 110, 99] (by norm_num)
  exact ⟨h.1, h.2 1 (by norm_num)⟩

/-! ### The per-asset statistics -/

theorem sum_sq_dev (xs : List ℚ) (m : ℚ) :
    (xs.map fun x => (x - m) ^ 2).sum =
      (xs.map fun x => x ^ 2).sum - 2 * m * xs.sum + (xs.length : ℚ) * m ^ 2 := by
  induction xs with
  | nil => simp
  | cons a l ih =>
    simp only [List.map_cons, List.sum_cons, List.length_cons, ih]
    push_cast
    ring

/-- **C9**: the statistics used as simulation parameters are the
arithmetic mean (`mean * n = sum`) and the Bessel-corrected sample
variance: multiplying `sampleVariance` by its divisor `n - 1` recovers the
sum of squared deviations `Σ x² - n·mean²`, and the divisor differs from
the population one by exactly `sampleVariance * (n-1) = populationVariance * n`.
Both are plain functions of the series, hence pure and deterministic. -/
theorem c9_mean_and_bessel_variance (xs : List ℚ) (h2 : 2 ≤ xs.length) :
    seriesMean xs * (xs.length : ℚ) = xs.sum ∧
    sampleVariance xs * ((xs.length : ℚ) - 1) =
      (xs.map fun x => x ^ 2).sum - (xs.length : ℚ) * seriesMean xs ^ 2 ∧
    sampleVariance xs * ((xs.length : ℚ) - 1) = populationVariance xs * (xs.length : ℚ) := by
  have hc : (2 : ℚ) ≤ (xs.length : ℚ) := by exact_mod_cast h2
  have hn0 : (xs.length : ℚ) ≠ 0 := by linarith
  have hn1 : (xs.length : ℚ) - 1 ≠ 0 := by linarith
  refine ⟨?_, ?_, ?_⟩
  · rw [seriesMean, div_mul_cancel₀ _ hn0]
  · rw [sampleVariance, div_mul_cancel₀ _ hn1, sum_sq_dev, seriesMean]
    field_simp
    ring
  · rw [sampleVariance, div_mul_cancel₀ _ hn1, populationVariance, div_mul_cancel₀ _ hn0]

/-- Witness for C9 on the concrete series `[1, 3]` (mean 2, sample
variance 2, population variance 1). -/
theorem c9_witness :
    seriesMean [1, 3] * ((2 : ℕ) : ℚ) = (8 : ℚ) / 4 + 2 ∧
    sampleVariance [1, 3] * (((2 : ℕ) : ℚ) - 1) =
      (([1, 3] : List ℚ).map fun x => x ^ 2).sum - ((2 : ℕ) : ℚ) * seriesMean [1, 3] ^ 2 ∧
    sampleVariance [1, 3] * (((2 : ℕ) : ℚ) - 1) =
      populationVariance [1, 3] * ((2 : ℕ) : ℚ) := by
  have h := c9_mean_and_bessel_variance [1, 3] (by norm_num)
  refine ⟨?_, ?_, ?_⟩
  · have h1 := h.1
    simp only [List.length_cons, List.length_nil] at h1 ⊢
    rw [h1]
    norm_num [List.sum_cons]
  · have h2 := h.2.1
    simpa using h2
  · have h3 := h.2.2
    simpa using h3

/-! ### Insufficient history: NaN instead of a typed failure -/

theorem nadd_none_left (v : Option ℝ) : nadd none v = none := by
  cases v <;> rfl

theorem nadd_none_right (v : Option ℝ) : nadd v none = none := by
  cases v <;> rfl

theorem nmul_none_right (v : Option ℝ) : nmul v none = none := by
  cases v <;> rfl

theorem nsub_none_right (v : Option ℝ) : nsub v none = none := by
  cases v <;> rfl

theorem drawO_vol_none (avg : Option ℝ) (zk : ℝ) : drawO avg none zk = none := by
  cases avg <;> rfl

theorem foldr_nadd_none (xs : List (Option ℝ)) (h : none ∈ xs) :
    xs.foldr nadd (some 0) = none := by
  induction xs with
  | nil => simp at h
  | cons a l ih =>
    rcases (by simpa using h : none = a ∨ none ∈ l) with h1 | h1
    · rw [List.foldr_cons, ← h1, nadd_none_left]
    · rw [List.foldr_cons, ih h1, nadd_none_right]

theorem meanAxisO_of_none (xs : List (Option ℝ)) (hlen : xs.length ≠ 0) (hmem : none ∈ xs) :
    meanAxisO xs = none := by
  simp only [meanAxisO, if_neg hlen, foldr_nadd_none xs hmem]
  rfl

theorem stdO_short (xs : List ℝ) (h : xs.length < 2) : stdO xs = none := by
  simp [stdO, h]

theorem dailyReturnsO_all_none (avg vol : ℕ → Option ℝ) (z : ℕ → ℝ) (N H pos : ℕ)
    (hvol : ∀ n, vol n = none) (hN : 1 ≤ N) :
    ∀ r ∈ dailyReturnsO avg vol z N H pos, r = none := by
  intro r hr
  simp only [dailyReturnsO, List.mem_map] at hr
  obtain ⟨t, _, rfl⟩ := hr
  apply meanAxisO_of_none
  · simp
    omega
  · apply List.mem_map.mpr
    refine ⟨0, List.mem_range.mpr (by omega), ?_⟩
    rw [hvol 0, drawO_vol_none]

theorem pathO_length (v : Option ℝ) (rs : List (Option ℝ)) :
    (pathO v rs).length = rs.length := by
  induction rs generalizing v with
  | nil => rfl
  | cons r rest ih => simp [pathO, ih]

theorem pathO_all_none (v : Option ℝ) (rs : List (Option ℝ)) (h : ∀ r ∈ rs, r = none) :
    ∀ x ∈ pathO v rs, x = none := by
  induction rs generalizing v with
  | nil => simp [pathO]
  | cons r rest ih =>
    intro x hx
    have hr : r = none := h r (by simp)
    rcases (by simpa [pathO] using hx :
        x = nmul v (nadd (some 1) r) ∨ x ∈ pathO (nmul v (nadd (some 1) r)) rest) with h1 | h1
    · rw [h1, hr, nadd_none_right, nmul_none_right]
    · exact ih _ (fun r' hr' => h r' (by simp [hr'])) x h1

theorem simFromO_length (avg vol : ℕ → Option ℝ) (z : ℕ → ℝ) (N H : ℕ) (V0 : ℝ)
    (pos k : ℕ) : (simFromO avg vol z N H V0 pos k).length = k := by
  induction k generalizing pos with
  | zero => rfl
  | succ k ih => simp [simFromO, ih]

theorem simFromO_mem (avg vol : ℕ → Option ℝ) (z : ℕ → ℝ) (N H : ℕ) (V0 : ℝ)
    (pos k : ℕ) (col : List (Option ℝ)) (h : col ∈ simFromO avg vol z N H V0 pos k) :
    ∃ q, col = pathO (some V0) (dailyReturnsO avg vol z N H q) := by
  induction k generalizing pos with
  | zero => simp [simFromO] at h
  | succ k ih =>
    rcases (by simpa [simFromO] using h :
        col = pathO (some V0) (dailyReturnsO avg vol z N H pos) ∨
          col ∈ simFromO avg vol z N H V0 (pos + H * N) k) with h1 | h1
    · exact ⟨pos, h1⟩
    · exact ih _ h1

theorem dailyReturnsO_length (avg vol : ℕ → Option ℝ) (z : ℕ → ℝ) (N H pos : ℕ) :
    (dailyReturnsO avg vol z N H pos).length = H := by
  simp [dailyReturnsO]

theorem evsO_none (cols : List (List (Option ℝ))) (h : ∀ col ∈ cols, ∀ x ∈ col, x = none) :
    ∀ e ∈ evsO cols, e = none := by
  intro e he
  simp only [evsO, List.mem_map] at he
  obtain ⟨col, hcol, rfl⟩ := he
  rcases hgd : col[col.length - 1]? with _ | a
  · simp [List.getD, hgd]
  · have ha : a ∈ col := List.getElem?_mem hgd
    simp [List.getD, hgd, h col hcol a ha]

theorem percO_none (xs : List (Option ℝ)) (hne : xs ≠ []) (hall : ∀ x ∈ xs, x = none) :
    percO xs 5 = none := by
  have hfalse : ¬xs.all Option.isSome = true := by
    rcases List.exists_mem_of_ne_nil xs hne with ⟨x, hx⟩
    intro hcontra
    rw [List.all_eq_true] at hcontra
    have hs := hcontra x hx
    rw [hall x hx] at hs
    simp at hs
  simp only [percO]
  rw [if_neg hfalse]

theorem app_single_observation_nan (prices : List ℝ) (z : ℕ → ℝ) (H R : ℕ) (V0 : ℝ)
    (hp : prices.length = 2) (_hH : 1 ≤ H) (hR : 1 ≤ R) :
    (appDFO [prices] z H R V0).length = R ∧
    (∀ col ∈ appDFO [prices] z H R V0, col.length = H ∧ ∀ x ∈ col, x = none) ∧
    appVaRO [prices] z H R V0 = none ∧
    appLabelO [prices] z H R V0 = RiskLabel.gain := by
  have hretlen : (pctChangeR prices).length = 1 := by
    simp [pctChangeR, List.length_zip, List.length_tail, hp]
  have hvol : ∀ n, appVolO [prices] n = none := by
    intro n
    cases n with
    | zero =>
      simp only [appVolO, appReturnsO, List.map_cons, List.map_nil]
      rw [show ([pctChangeR prices] : List (List ℝ)).getD 0 [] = pctChangeR prices from rfl]
      exact stdO_short _ (by omega)
    | succ m =>
      simp only [appVolO, appReturnsO, List.map_cons, List.map_nil]
      rw [show ([pctChangeR prices] : List (List ℝ)).getD (m + 1) [] = [] from rfl]
      exact stdO_short _ (by simp)
  have hallnone : ∀ col ∈ appDFO [prices] z H R V0, ∀ x ∈ col, x = none := by
    intro col hcol
    rcases simFromO_mem _ _ _ _ _ _ _ _ _ hcol with ⟨q, rfl⟩
    exact pathO_all_none _ _
      (dailyReturnsO_all_none _ _ _ _ _ _ hvol (by simp) )
  refine ⟨simFromO_length _ _ _ _ _ _ _ _, fun col hcol => ⟨?_, hallnone col hcol⟩, ?_, ?_⟩
  · rcases simFromO_mem _ _ _ _ _ _ _ _ _ hcol with ⟨q, rfl⟩
    rw [pathO_length, dailyReturnsO_length]
  · have hdflen : (appDFO [prices] z H R V0).length = R := simFromO_length _ _ _ _ _ _ _ _
    have hevne : evsO (appDFO [prices] z H R V0) ≠ [] := by
      intro hcontra
      have := congrArg List.length hcontra
      simp [evsO, hdflen] at this
      omega
    rw [appVaRO, percO_none _ hevne (evsO_none _ hallnone), nsub_none_right]
  · have hdflen : (appDFO [prices] z H R V0).length = R := simFromO_length _ _ _ _ _ _ _ _
    have hevne : evsO (appDFO [prices] z H R V0) ≠ [] := by
      intro hcontra
      have := congrArg List.length hcontra
      simp [evsO, hdflen] at this
      omega
    rw [appLabelO, appVaRO, percO_none _ hevne (evsO_none _ hallnone), nsub_none_right]
    rfl

/-- Counterexample to C4 as stated: on the concrete price history
`[100, 110]` for a single asset — exactly one return observation — the
script is NOT stopped by any typed `InsufficientHistory` failure before
the simulation: using its hardcoded `time_horizon = 252` and
`num_simulations = 10000` it runs the full simulation (the ensemble has
all 10000 columns) and reports `VaR_95 = NaN`, a numeric sentinel, through
the normal output path.  (Horizon 0 and run count 0 cannot even arise:
both are hardcoded constants, and no `InvalidConfiguration` check exists.) -/
theorem c4_counterexample :
    appVaRO [[100, 110]] (fun _ => 0) 252 10000 10000 = none ∧
    (appDFO [[100, 110]] (fun _ => 0) 252 10000 10000).length = 10000 := by
  have h := app_single_observation_nan [100, 110] (fun _ => 0) 252 10000 10000
    (by simp) (by norm_num) (by norm_num)
  exact ⟨h.2.2.1, h.1⟩

/-- **C4 (amended)**: the code performs no validation.  Horizon and run
count are hardcoded positive constants (252 and 10000), so zero values
cannot arise and no `InvalidConfiguration` rejection exists; with a single
return observation per asset nothing raises `InsufficientHistory`:
`returns.std()` is NaN, the simulation still runs to its full `H × R`
shape with every value NaN, `VaR_95` is NaN — the error surfaces as a
numeric sentinel through the normal output, displayed via the gain branch
(`NaN > 0` is false) — and no typed failure is reported anywhere. -/
theorem c4_no_validation_nan_sentinel (prices : List ℝ) (z : ℕ → ℝ) (H R : ℕ) (V0 : ℝ)
    (hp : prices.length = 2) (hH : 1 ≤ H) (hR : 1 ≤ R) :
    (appDFO [prices] z H R V0).length = R ∧
    (∀ col ∈ appDFO [prices] z H R V0, col.length = H ∧ ∀ x ∈ col, x = none) ∧
    appVaRO [prices] z H R V0 = none ∧
    appLabelO [prices] z H R V0 = RiskLabel.gain :=
  app_single_observation_nan prices z H R V0 hp hH hR

/-- Witness for the amended C4 at the concrete single-observation input. -/
theorem c4_witness :
    (appDFO [[100, 110]] (fun _ => 0) 252 10000 10000).length = 10000 ∧
    appVaRO [[100, 110]] (fun _ => 0) 252 10000 10000 = none ∧
    appLabelO [[100, 110]] (fun _ => 0) 252 10000 10000 = RiskLabel.gain := by
  have h := c4_no_validation_nan_sentinel [100, 110] (fun _ => 0) 252 10000 10000
    (by simp) (by norm_num) (by norm_num)
  exact ⟨h.1, h.2.2.1, h.2.2.2⟩

end AlphaPulse
